import Mathlib

/-!
Verification of the incremental UTF-8 validator/decoder (`src/lib.rs`).

Shallow embedding conventions:
* Rust `u8` bytes become `Nat` values; hypotheses `b < 256` are added where a
  claim quantifies over bytes.
* Rust byte slices `&[u8]` become `List Nat`; a subslice `&input[i..]` becomes
  the corresponding suffix list.
* The validated `&str` prefix returned by `decode_step` is modelled as the list
  of its bytes.
* The scanning loop of `decode_step` (which advances a `position` cursor)
  becomes structural recursion on the remaining input; the validated prefix is
  accumulated by consing the scanned bytes in front of the recursive result.
-/

set_option maxRecDepth 8192

namespace Utf8

/-- The table `UTF8_CHAR_WIDTH` from `src/lib.rs` (256 entries, indexed by the
leading byte). -/
def UTF8_CHAR_WIDTH : List Nat := [
  1,1,1,1,1,1,1,1,1,1,1,1,1,1,1,1,
  1,1,1,1,1,1,1,1,1,1,1,1,1,1,1,1, -- 0x1F
  1,1,1,1,1,1,1,1,1,1,1,1,1,1,1,1,
  1,1,1,1,1,1,1,1,1,1,1,1,1,1,1,1, -- 0x3F
  1,1,1,1,1,1,1,1,1,1,1,1,1,1,1,1,
  1,1,1,1,1,1,1,1,1,1,1,1,1,1,1,1, -- 0x5F
  1,1,1,1,1,1,1,1,1,1,1,1,1,1,1,1,
  1,1,1,1,1,1,1,1,1,1,1,1,1,1,1,1, -- 0x7F
  0,0,0,0,0,0,0,0,0,0,0,0,0,0,0,0,
  0,0,0,0,0,0,0,0,0,0,0,0,0,0,0,0, -- 0x9F
  0,0,0,0,0,0,0,0,0,0,0,0,0,0,0,0,
  0,0,0,0,0,0,0,0,0,0,0,0,0,0,0,0, -- 0xBF
  0,0,2,2,2,2,2,2,2,2,2,2,2,2,2,2,
  2,2,2,2,2,2,2,2,2,2,2,2,2,2,2,2, -- 0xDF
  3,3,3,3,3,3,3,3,3,3,3,3,3,3,3,3, -- 0xEF
  4,4,4,4,4,0,0,0,0,0,0,0,0,0,0,0] -- 0xFF

/-- `fn width(first_byte: u8) -> u8`: table lookup in `UTF8_CHAR_WIDTH`.
(Out-of-range indices cannot occur for a `u8`; `getD` defaults to 0.) -/
def width (first_byte : Nat) : Nat := UTF8_CHAR_WIDTH.getD first_byte 0

/-- `fn is_continuation_byte(b: u8) -> bool`: `b & 0b1100_0000 == 0b1000_0000`. -/
def is_continuation_byte (b : Nat) : Bool := b &&& 0xC0 == 0x80

/-- `fn valid_three_bytes_sequence_prefix(first, second)` from `src/lib.rs`:
the `matches!` over the RFC 3629 ranges for 3-byte sequences. -/
def valid_three_bytes_sequence_prefix (first second : Nat) : Bool :=
  (first == 0xE0 && decide (0xA0 ≤ second ∧ second ≤ 0xBF)) ||
  (decide (0xE1 ≤ first ∧ first ≤ 0xEC) && decide (0x80 ≤ second ∧ second ≤ 0xBF)) ||
  (first == 0xED && decide (0x80 ≤ second ∧ second ≤ 0x9F)) ||
  (decide (0xEE ≤ first ∧ first ≤ 0xEF) && decide (0x80 ≤ second ∧ second ≤ 0xBF))

/-- `fn valid_four_bytes_sequence_prefix(first, second)` from `src/lib.rs`:
the `matches!` over the RFC 3629 ranges for 4-byte sequences. -/
def valid_four_bytes_sequence_prefix (first second : Nat) : Bool :=
  (first == 0xF0 && decide (0x90 ≤ second ∧ second ≤ 0xBF)) ||
  (decide (0xF1 ≤ first ∧ first ≤ 0xF3) && decide (0x80 ≤ second ∧ second ≤ 0xBF)) ||
  (first == 0xF4 && decide (0x80 ≤ second ∧ second ≤ 0x8F))

/-- The `struct IncompleteSequence { len, first, second, third }`. -/
structure IncompleteSequence where
  len : Nat
  first : Nat
  second : Nat
  third : Nat
  deriving DecidableEq, Repr

/-- The `enum DecodeStepStatus`; the borrowed slice in `Error` is the list of
its bytes. -/
inductive DecodeStepStatus where
  | Ok : DecodeStepStatus
  | Error (remaining_input_after_error : List Nat) : DecodeStepStatus
  | Incomplete (seq : IncompleteSequence) : DecodeStepStatus
  deriving DecidableEq, Repr

/-- `struct StrChar { bytes: [u8; 4] }`: the in-memory codepoint carrier. -/
structure StrChar where
  bytes : List Nat
  deriving DecidableEq, Repr

/-- The `enum CompleteResult`. -/
inductive CompleteResult where
  | Ok (code_point : StrChar) (remaining_input : List Nat) : CompleteResult
  | Error (remaining_input_after_error : List Nat) : CompleteResult
  | StillIncomplete (seq : IncompleteSequence) : CompleteResult
  deriving DecidableEq, Repr

/-- The second-byte validation `match width { 2 => .., 3 => .., _ => .. }`
that appears verbatim both in `decode_step` (lines 96–103) and in
`IncompleteSequence::complete` (lines 173–180). -/
def validSecond (first second : Nat) : Bool :=
  match width first with
  | 2 => is_continuation_byte second
  | 3 => valid_three_bytes_sequence_prefix first second
  | _ => valid_four_bytes_sequence_prefix first second

/-- The body of `decode_step`'s loop for one non-ASCII leading byte
(`src/lib.rs` lines 93–113): classify the width, then read and validate the
remaining bytes of the sequence.  `inl status` models the early `return`s of
the `check!`/`next!` macros (the validated prefix stops before this sequence);
`inr (seq, rest')` models `position += width`: the sequence's bytes were all
valid and scanning continues on `rest'`. -/
def scan_multibyte (first : Nat) (rest : List Nat) :
    DecodeStepStatus ⊕ (List Nat × List Nat) :=
  let w := width first
  -- `check!(width != 0, 1)`: remaining is `&input[position + 1..]`.
  if w == 0 then .inl (.Error rest)
  else
    match rest with
    | [] => .inl (.Incomplete ⟨1, first, 0, 0⟩)
    | second :: rest2 =>
      if validSecond first second then
        if w > 2 then
          match rest2 with
          | [] => .inl (.Incomplete ⟨2, first, second, 0⟩)
          | third :: rest3 =>
            if is_continuation_byte third then
              if w > 3 then
                match rest3 with
                | [] => .inl (.Incomplete ⟨3, first, second, third⟩)
                | fourth :: rest4 =>
                  if is_continuation_byte fourth then
                    .inr ([first, second, third, fourth], rest4)
                  else .inl (.Error (fourth :: rest4))
              else .inr ([first, second, third], rest3)
            else .inl (.Error (third :: rest3))
        else .inr ([first, second], rest2)
      else .inl (.Error (second :: rest2))

/-- On the `inr` (continue) outcome, scanning resumes on a suffix of `rest`. -/
lemma scan_multibyte_inr_length (first : Nat) (rest seq rest' : List Nat)
    (h : scan_multibyte first rest = .inr (seq, rest')) :
    rest'.length ≤ rest.length := by
  unfold scan_multibyte at h
  dsimp only at h
  split at h
  · simp at h
  · split at h
    · simp at h
    · rename_i second rest2
      split at h
      · split at h
        · split at h
          · simp at h
          · rename_i third rest3
            split at h
            · split at h
              · split at h
                · simp at h
                · rename_i fourth rest4
                  split at h
                  · simp only [Sum.inr.injEq, Prod.mk.injEq] at h
                    rw [← h.2]
                    simp only [List.length_cons]
                    omega
                  · simp at h
              · simp only [Sum.inr.injEq, Prod.mk.injEq] at h
                rw [← h.2]
                simp only [List.length_cons]
                omega
            · simp at h
        · simp only [Sum.inr.injEq, Prod.mk.injEq] at h
          rw [← h.2]
          simp only [List.length_cons]
          omega
      · simp at h

/-- `fn decode_step(input: &[u8]) -> (&str, DecodeStepStatus)` (lines 13–116).
The loop over `position` is rendered as recursion on the remaining input; the
validated prefix `input[..position]` is rebuilt by prepending scanned bytes to
the recursive result, `Error`'s `&input[position + k..]` is the corresponding
suffix list, and `Incomplete` carries the bytes matched so far. -/
def decode_step (input : List Nat) : List Nat × DecodeStepStatus :=
  match input with
  | [] => ([], .Ok)
  | first :: rest =>
    if first < 128 then
      -- ASCII: `position += 1`, keep scanning.
      let r := decode_step rest
      (first :: r.1, r.2)
    else
      match hs : scan_multibyte first rest with
      | .inl status => ([], status)
      | .inr (seq, rest') =>
        -- `position += width`, keep scanning.
        let r := decode_step rest'
        (seq ++ r.1, r.2)
termination_by input.length
decreasing_by
  · simp only [List.length_cons]
    omega
  · have := scan_multibyte_inr_length _ _ _ _ hs
    simp only [List.length_cons]
    omega

/-- The last stage of `IncompleteSequence::complete` (lines 185–200): the
optional fourth byte when `width > 3`, then the final `Ok`.  `pos` is the
number of bytes of `input` consumed so far (Rust's `position`), used only to
compute `new_len = self.len + position` on `StillIncomplete`; the unconsumed
suffix of `input` is passed directly. -/
def complete_four (s : IncompleteSequence) (w pos : Nat) (input : List Nat) : CompleteResult :=
  if w > 3 then
    match input with
    | [] => .StillIncomplete { s with len := s.len + pos }
    | fourth :: rest =>
      if is_continuation_byte fourth then .Ok ⟨[s.first, s.second, s.third, fourth]⟩ rest
      else .Error (fourth :: rest)
  else .Ok ⟨[s.first, s.second, s.third, 0]⟩ input

/-- The middle stage of `IncompleteSequence::complete` (lines 186–191): the
third byte when `width > 2` and it was not already captured. -/
def complete_third (s : IncompleteSequence) (w pos : Nat) (input : List Nat) : CompleteResult :=
  if w > 2 then
    if s.len < 3 then
      match input with
      | [] => .StillIncomplete { s with len := s.len + pos }
      | third :: rest =>
        if is_continuation_byte third then
          complete_four { s with third := third } w (pos + 1) rest
        else .Error (third :: rest)
    else complete_four s w pos input
  else .Ok ⟨[s.first, s.second, s.third, 0]⟩ input

/-- `IncompleteSequence::complete` (lines 144–201): pulls the still-missing
bytes of the sequence from `input`, validating each, and returns
`Ok`/`Error`/`StillIncomplete` exactly as the Rust control flow does. -/
def complete (s : IncompleteSequence) (input : List Nat) : CompleteResult :=
  let w := width s.first
  if s.len < 2 then
    match input with
    | [] => .StillIncomplete { s with len := s.len + 0 }
    | second :: rest =>
      if validSecond s.first second then
        complete_third { s with second := second } w 1 rest
      else .Error (second :: rest)
  else complete_third s w 0 input

/-! ### Facts about the width table and the validators -/

lemma UTF8_CHAR_WIDTH_length : UTF8_CHAR_WIDTH.length = 256 := by decide

lemma width_ge_256 (b : Nat) (h : 256 ≤ b) : width b = 0 := by
  unfold width
  rw [List.getD_eq_default]
  rw [UTF8_CHAR_WIDTH_length]; omega

lemma width_ascii (b : Nat) (h : b < 128) : width b = 1 :=
  (by decide : ∀ b < 128, width b = 1) b h

lemma width_two (b : Nat) (h1 : 0xC2 ≤ b) (h2 : b ≤ 0xDF) : width b = 2 :=
  (by decide : ∀ b < 0xE0, 0xC2 ≤ b → width b = 2) b (by omega) h1

lemma width_three (b : Nat) (h1 : 0xE0 ≤ b) (h2 : b ≤ 0xEF) : width b = 3 :=
  (by decide : ∀ b < 0xF0, 0xE0 ≤ b → width b = 3) b (by omega) h1

lemma width_four (b : Nat) (h1 : 0xF0 ≤ b) (h2 : b ≤ 0xF4) : width b = 4 :=
  (by decide : ∀ b < 0xF5, 0xF0 ≤ b → width b = 4) b (by omega) h1

/-- For any `b`, the width is at most 4 (out-of-range bytes read the default 0). -/
lemma width_le_four (b : Nat) : width b ≤ 4 := by
  by_cases h : b < 256
  · exact (by decide : ∀ b < 256, width b ≤ 4) b h
  · rw [width_ge_256 b (by omega)]; omega

/-- A byte with nonzero width that is not ASCII has width between 2 and 4. -/
lemma width_nonzero_not_ascii (b : Nat) (h0 : width b ≠ 0) (h1 : ¬ b < 128) :
    2 ≤ width b ∧ width b ≤ 4 := by
  by_cases h : b < 256
  · exact (by decide : ∀ b < 256, 128 ≤ b → width b = 0 ∨ (2 ≤ width b ∧ width b ≤ 4)) b h
      (by omega) |>.resolve_left h0
  · exact absurd (width_ge_256 b (by omega)) h0

/-- Any byte with width ≥ 2 lies in `0x80..0xFF` (so it is not ASCII). -/
lemma width_ge_two_bounds (b : Nat) (h : 2 ≤ width b) : 128 ≤ b ∧ b < 256 := by
  by_cases hb : b < 256
  · exact ⟨(by decide : ∀ b < 256, 2 ≤ width b → 128 ≤ b) b hb h, hb⟩
  · rw [width_ge_256 b (by omega)] at h; omega

lemma is_continuation_byte_iff (b : Nat) (hb : b < 256) :
    is_continuation_byte b = true ↔ 0x80 ≤ b ∧ b ≤ 0xBF :=
  (by decide : ∀ b < 256, is_continuation_byte b = true ↔ 0x80 ≤ b ∧ b ≤ 0xBF) b hb

lemma is_continuation_byte_of_range (b : Nat) (h1 : 0x80 ≤ b) (h2 : b ≤ 0xBF) :
    is_continuation_byte b = true :=
  (is_continuation_byte_iff b (by omega)).2 ⟨h1, h2⟩

lemma valid_three_iff (first second : Nat) :
    valid_three_bytes_sequence_prefix first second = true ↔
      ((first = 0xE0 ∧ 0xA0 ≤ second ∧ second ≤ 0xBF) ∨
       (0xE1 ≤ first ∧ first ≤ 0xEC ∧ 0x80 ≤ second ∧ second ≤ 0xBF) ∨
       (first = 0xED ∧ 0x80 ≤ second ∧ second ≤ 0x9F) ∨
       (0xEE ≤ first ∧ first ≤ 0xEF ∧ 0x80 ≤ second ∧ second ≤ 0xBF)) := by
  simp [ valid_three_bytes_sequence_prefix, Bool.or_eq_true, Bool.and_eq_true,
    beq_iff_eq, decide_eq_true_iff]
  tauto

lemma valid_four_iff (first second : Nat) :
    valid_four_bytes_sequence_prefix first second = true ↔
      ((first = 0xF0 ∧ 0x90 ≤ second ∧ second ≤ 0xBF) ∨
       (0xF1 ≤ first ∧ first ≤ 0xF3 ∧ 0x80 ≤ second ∧ second ≤ 0xBF) ∨
       (first = 0xF4 ∧ 0x80 ≤ second ∧ second ≤ 0x8F)) := by
  simp [ valid_four_bytes_sequence_prefix, Bool.or_eq_true, Bool.and_eq_true,
    beq_iff_eq, decide_eq_true_iff]
  tauto

/-! ### Unfolding lemmas for `scan_multibyte` and `decode_step`, one per
control path -/

lemma scan_width0 (b : Nat) (t : List Nat) (hw : width b = 0) :
    scan_multibyte b t = .inl (.Error t) := by
  unfold scan_multibyte
  simp [hw]

lemma scan_incomplete1 (b : Nat) (hw : width b ≠ 0) :
    scan_multibyte b [] = .inl (.Incomplete ⟨1, b, 0, 0⟩) := by
  unfold scan_multibyte
  simp [hw]

lemma scan_bad_second (b1 b2 : Nat) (t : List Nat) (hw : width b1 ≠ 0)
    (hv : validSecond b1 b2 = false) :
    scan_multibyte b1 (b2 :: t) = .inl (.Error (b2 :: t)) := by
  unfold scan_multibyte
  simp [hw, hv]

lemma scan_two (b1 b2 : Nat) (t : List Nat) (hw : width b1 = 2)
    (hv : validSecond b1 b2 = true) :
    scan_multibyte b1 (b2 :: t) = .inr ([b1, b2], t) := by
  unfold scan_multibyte
  simp [hw, hv]

lemma scan_incomplete2 (b1 b2 : Nat) (hw : width b1 ≠ 0) (hw2 : width b1 > 2)
    (hv : validSecond b1 b2 = true) :
    scan_multibyte b1 [b2] = .inl (.Incomplete ⟨2, b1, b2, 0⟩) := by
  unfold scan_multibyte
  simp [hw, hw2, hv]

lemma scan_bad_third (b1 b2 b3 : Nat) (t : List Nat) (hw : width b1 ≠ 0)
    (hw2 : width b1 > 2) (hv : validSecond b1 b2 = true)
    (h3 : is_continuation_byte b3 = false) :
    scan_multibyte b1 (b2 :: b3 :: t) = .inl (.Error (b3 :: t)) := by
  unfold scan_multibyte
  simp [hw, hw2, hv, h3]

lemma scan_three (b1 b2 b3 : Nat) (t : List Nat) (hw : width b1 = 3)
    (hv : validSecond b1 b2 = true) (h3 : is_continuation_byte b3 = true) :
    scan_multibyte b1 (b2 :: b3 :: t) = .inr ([b1, b2, b3], t) := by
  unfold scan_multibyte
  simp [hw, hv, h3]

lemma scan_incomplete3 (b1 b2 b3 : Nat) (hw : width b1 ≠ 0) (hw3 : width b1 > 3)
    (hv : validSecond b1 b2 = true) (h3 : is_continuation_byte b3 = true) :
    scan_multibyte b1 [b2, b3] = .inl (.Incomplete ⟨3, b1, b2, b3⟩) := by
  have hw2 : width b1 > 2 := by omega
  unfold scan_multibyte
  simp [hw, hv, h3, hw2, hw3]

lemma scan_bad_fourth (b1 b2 b3 b4 : Nat) (t : List Nat) (hw : width b1 ≠ 0)
    (hw3 : width b1 > 3) (hv : validSecond b1 b2 = true)
    (h3 : is_continuation_byte b3 = true) (h4 : is_continuation_byte b4 = false) :
    scan_multibyte b1 (b2 :: b3 :: b4 :: t) = .inl (.Error (b4 :: t)) := by
  have hw2 : width b1 > 2 := by omega
  unfold scan_multibyte
  simp [hw, hv, h3, h4, hw2, hw3]

lemma scan_four (b1 b2 b3 b4 : Nat) (t : List Nat) (hw : width b1 = 4)
    (hv : validSecond b1 b2 = true) (h3 : is_continuation_byte b3 = true)
    (h4 : is_continuation_byte b4 = true) :
    scan_multibyte b1 (b2 :: b3 :: b4 :: t) = .inr ([b1, b2, b3, b4], t) := by
  unfold scan_multibyte
  simp [hw, hv, h3, h4]

lemma decode_step_nil : decode_step [] = ([], .Ok) := by
  rw [decode_step]

lemma decode_step_ascii (b : Nat) (t : List Nat) (h : b < 128) :
    decode_step (b :: t) = (b :: (decode_step t).1, (decode_step t).2) := by
  rw [decode_step]
  rw [if_pos h]

lemma decode_step_inl (b : Nat) (t : List Nat) (st : DecodeStepStatus)
    (h : ¬ b < 128) (hs : scan_multibyte b t = .inl st) :
    decode_step (b :: t) = ([], st) := by
  rw [decode_step]
  rw [if_neg h]
  split
  · rename_i status heq
    rw [hs] at heq
    cases heq
    rfl
  · rename_i seq rest' heq
    rw [hs] at heq
    cases heq

lemma decode_step_inr (b : Nat) (t seq rest' : List Nat)
    (h : ¬ b < 128) (hs : scan_multibyte b t = .inr (seq, rest')) :
    decode_step (b :: t) = (seq ++ (decode_step rest').1, (decode_step rest').2) := by
  rw [decode_step]
  rw [if_neg h]
  split
  · rename_i status heq
    rw [hs] at heq
    cases heq
  · rename_i seq2 rest2 heq
    rw [hs] at heq
    cases heq
    rfl

lemma not_ascii_of_width_ge_two (b : Nat) (h : 2 ≤ width b) : ¬ b < 128 := by
  have := (width_ge_two_bounds b h).1
  omega

lemma decode_step_width0 (b : Nat) (t : List Nat) (h : ¬ b < 128) (hw : width b = 0) :
    decode_step (b :: t) = ([], .Error t) :=
  decode_step_inl b t _ h (scan_width0 b t hw)

lemma decode_step_two (b1 b2 : Nat) (t : List Nat) (hw : width b1 = 2)
    (hv : validSecond b1 b2 = true) :
    decode_step (b1 :: b2 :: t) = (b1 :: b2 :: (decode_step t).1, (decode_step t).2) := by
  rw [decode_step_inr b1 (b2 :: t) [b1, b2] t (not_ascii_of_width_ge_two b1 (by omega))
    (scan_two b1 b2 t hw hv)]
  rfl

lemma decode_step_three (b1 b2 b3 : Nat) (t : List Nat) (hw : width b1 = 3)
    (hv : validSecond b1 b2 = true) (h3 : is_continuation_byte b3 = true) :
    decode_step (b1 :: b2 :: b3 :: t) =
      (b1 :: b2 :: b3 :: (decode_step t).1, (decode_step t).2) := by
  rw [decode_step_inr b1 (b2 :: b3 :: t) [b1, b2, b3] t
    (not_ascii_of_width_ge_two b1 (by omega)) (scan_three b1 b2 b3 t hw hv h3)]
  rfl

lemma decode_step_four (b1 b2 b3 b4 : Nat) (t : List Nat) (hw : width b1 = 4)
    (hv : validSecond b1 b2 = true) (h3 : is_continuation_byte b3 = true)
    (h4 : is_continuation_byte b4 = true) :
    decode_step (b1 :: b2 :: b3 :: b4 :: t) =
      (b1 :: b2 :: b3 :: b4 :: (decode_step t).1, (decode_step t).2) := by
  rw [decode_step_inr b1 (b2 :: b3 :: b4 :: t) [b1, b2, b3, b4] t
    (not_ascii_of_width_ge_two b1 (by omega)) (scan_four b1 b2 b3 b4 t hw hv h3 h4)]
  rfl

/-! ### Well-formed UTF-8 per the spec (RFC 3629 grammar)

These definitions follow the *spec's words* (section 4.2 and the RFC grammar
quoted in the source comments), not the code: they are the reference against
which `decode_step` is compared. -/

/-- `UTF8-tail = %x80-BF` of RFC 3629. -/
def SpecTail (b : Nat) : Prop := 0x80 ≤ b ∧ b ≤ 0xBF

/-- The first two bytes of a `UTF8-3` production of RFC 3629 (surrogates
excluded, overlongs excluded), as described in the spec. -/
def SpecThreePrefix (b1 b2 : Nat) : Prop :=
  (b1 = 0xE0 ∧ 0xA0 ≤ b2 ∧ b2 ≤ 0xBF) ∨
  (0xE1 ≤ b1 ∧ b1 ≤ 0xEC ∧ SpecTail b2) ∨
  (b1 = 0xED ∧ 0x80 ≤ b2 ∧ b2 ≤ 0x9F) ∨
  (0xEE ≤ b1 ∧ b1 ≤ 0xEF ∧ SpecTail b2)

/-- The first two bytes of a `UTF8-4` production of RFC 3629 (overlongs and
values above U+10FFFF excluded), as described in the spec. -/
def SpecFourPrefix (b1 b2 : Nat) : Prop :=
  (b1 = 0xF0 ∧ 0x90 ≤ b2 ∧ b2 ≤ 0xBF) ∨
  (0xF1 ≤ b1 ∧ b1 ≤ 0xF3 ∧ SpecTail b2) ∨
  (b1 = 0xF4 ∧ 0x80 ≤ b2 ∧ b2 ≤ 0x8F)

/-- A byte list is well-formed UTF-8 (per RFC 3629: no overlong forms, no
surrogates, nothing above U+10FFFF): a concatenation of `UTF8-1` / `UTF8-2` /
`UTF8-3` / `UTF8-4` productions. -/
inductive SpecWellFormed : List Nat → Prop where
  | nil : SpecWellFormed []
  | ascii {b : Nat} {t : List Nat} :
      b < 0x80 → SpecWellFormed t → SpecWellFormed (b :: t)
  | two {b1 b2 : Nat} {t : List Nat} :
      0xC2 ≤ b1 → b1 ≤ 0xDF → SpecTail b2 → SpecWellFormed t →
      SpecWellFormed (b1 :: b2 :: t)
  | three {b1 b2 b3 : Nat} {t : List Nat} :
      SpecThreePrefix b1 b2 → SpecTail b3 → SpecWellFormed t →
      SpecWellFormed (b1 :: b2 :: b3 :: t)
  | four {b1 b2 b3 b4 : Nat} {t : List Nat} :
      SpecFourPrefix b1 b2 → SpecTail b3 → SpecTail b4 → SpecWellFormed t →
      SpecWellFormed (b1 :: b2 :: b3 :: b4 :: t)

lemma specThreePrefix_width {b1 b2 : Nat} (h : SpecThreePrefix b1 b2) : width b1 = 3 := by
  apply width_three <;>
    rcases h with ⟨rfl, -⟩ | ⟨h1, h2, -⟩ | ⟨rfl, -⟩ | ⟨h1, h2, -⟩ <;> omega

lemma specFourPrefix_width {b1 b2 : Nat} (h : SpecFourPrefix b1 b2) : width b1 = 4 := by
  apply width_four <;>
    rcases h with ⟨rfl, -⟩ | ⟨h1, h2, -⟩ | ⟨rfl, -⟩ <;> omega

lemma validSecond_two {b1 b2 : Nat} (hw : width b1 = 2) (h : SpecTail b2) :
    validSecond b1 b2 = true := by
  unfold validSecond
  rw [hw]
  exact is_continuation_byte_of_range b2 h.1 h.2

lemma validSecond_three {b1 b2 : Nat} (h : SpecThreePrefix b1 b2) :
    validSecond b1 b2 = true := by
  unfold validSecond
  rw [specThreePrefix_width h]
  rw [valid_three_iff]
  unfold SpecThreePrefix SpecTail at h
  tauto

lemma validSecond_four {b1 b2 : Nat} (h : SpecFourPrefix b1 b2) :
    validSecond b1 b2 = true := by
  unfold validSecond
  rw [specFourPrefix_width h]
  rw [valid_four_iff]
  unfold SpecFourPrefix SpecTail at h
  tauto

/-- Scanning a well-formed chunk: `decode_step` walks through any well-formed
prefix `v` and continues on the rest, prepending `v` to the validated prefix. -/
lemma decode_step_append (v : List Nat) (hv : SpecWellFormed v) (t : List Nat) :
    decode_step (v ++ t) = (v ++ (decode_step t).1, (decode_step t).2) := by
  induction hv with
  | nil => simp
  | ascii hb _ ih =>
    rw [List.cons_append, decode_step_ascii _ _ hb, ih]
    simp
  | two h1 h2 htl _ ih =>
    rw [List.cons_append, List.cons_append,
      decode_step_two _ _ _ (width_two _ h1 h2) (validSecond_two (width_two _ h1 h2) htl), ih]
    simp
  | three hp h3 _ ih =>
    rw [List.cons_append, List.cons_append, List.cons_append,
      decode_step_three _ _ _ _ (specThreePrefix_width hp) (validSecond_three hp)
        (is_continuation_byte_of_range _ h3.1 h3.2), ih]
    simp
  | four hp h3 h4 _ ih =>
    rw [List.cons_append, List.cons_append, List.cons_append, List.cons_append,
      decode_step_four _ _ _ _ _ (specFourPrefix_width hp) (validSecond_four hp)
        (is_continuation_byte_of_range _ h3.1 h3.2)
        (is_continuation_byte_of_range _ h4.1 h4.2), ih]
    simp

/-! ### The `IncompleteSequence` invariant -/

/-- The invariant of `IncompleteSequence` stated by the spec:
`0 < len < width(first) ≤ 4`, and every byte captured so far passed its
validator (the leading byte's validator is `width ≠ 0`, which follows from
`len < width`; the second byte's is the `match width` dispatch; the third's is
`is_continuation_byte`). -/
def seqInv (s : IncompleteSequence) : Prop :=
  0 < s.len ∧ s.len < width s.first ∧ width s.first ≤ 4 ∧
  (2 ≤ s.len → validSecond s.first s.second = true) ∧
  (3 ≤ s.len → is_continuation_byte s.third = true)

lemma seqInv_mk (l f sec th : Nat) (h1 : 0 < l) (h2 : l < width f)
    (h3 : width f ≤ 4) (h4 : 2 ≤ l → validSecond f sec = true)
    (h5 : 3 ≤ l → is_continuation_byte th = true) :
    seqInv ⟨l, f, sec, th⟩ :=
  ⟨h1, h2, h3, h4, h5⟩

/-- Any `Incomplete` value handed out by `scan_multibyte` under a non-ASCII
leading byte satisfies the invariant. -/
lemma scan_inl_incomplete_inv (f : Nat) (r : List Nat) (p : IncompleteSequence)
    (hf : ¬ f < 128) (h : scan_multibyte f r = .inl (.Incomplete p)) : seqInv p := by
  unfold scan_multibyte at h
  dsimp only at h
  split at h
  · simp at h
  · rename_i hw0
    have hw0' : width f ≠ 0 := by simpa using hw0
    have hge2 := width_nonzero_not_ascii f hw0' hf
    split at h
    · -- Incomplete ⟨1, f, 0, 0⟩
      simp only [Sum.inl.injEq, DecodeStepStatus.Incomplete.injEq] at h
      subst h
      exact seqInv_mk 1 f 0 0 (by omega) (by omega) hge2.2
        (fun hc => absurd hc (by omega)) (fun hc => absurd hc (by omega))
    · rename_i second rest2
      split at h
      · rename_i hv
        split at h
        · rename_i hw2
          split at h
          · -- Incomplete ⟨2, f, second, 0⟩
            simp only [Sum.inl.injEq, DecodeStepStatus.Incomplete.injEq] at h
            subst h
            exact seqInv_mk 2 f second 0 (by omega) (by omega) hge2.2
              (fun _ => hv) (fun hc => absurd hc (by omega))
          · rename_i third rest3
            split at h
            · rename_i h3
              split at h
              · rename_i hw3
                split at h
                · -- Incomplete ⟨3, f, second, third⟩
                  simp only [Sum.inl.injEq, DecodeStepStatus.Incomplete.injEq] at h
                  subst h
                  exact seqInv_mk 3 f second third (by omega) (by omega) hge2.2
                    (fun _ => hv) (fun _ => h3)
                · split at h <;> simp at h
              · simp at h
            · simp at h
        · simp at h
      · simp at h

/-- `decode_step` only hands out `Incomplete` values satisfying the invariant. -/
lemma decode_step_incomplete_inv (input : List Nat) :
    ∀ pre p, decode_step input = (pre, .Incomplete p) → seqInv p := by
  induction input using decode_step.induct with
  | case1 =>
    intro pre p h
    rw [decode_step_nil] at h
    simp at h
  | case2 first rest h ih =>
    intro pre p hh
    rw [decode_step_ascii _ _ h] at hh
    have h2 : (decode_step rest).2 = .Incomplete p := by
      have := congrArg Prod.snd hh
      simpa using this
    exact ih (decode_step rest).1 p (by rw [← h2])
  | case3 first rest h status hs =>
    intro pre p hh
    rw [decode_step_inl _ _ _ h hs] at hh
    have h2 : status = .Incomplete p := by
      have := congrArg Prod.snd hh
      simpa using this
    subst h2
    exact scan_inl_incomplete_inv first rest p h hs
  | case4 first rest h seq rest' hs ih =>
    intro pre p hh
    rw [decode_step_inr _ _ _ _ h hs] at hh
    have h2 : (decode_step rest').2 = .Incomplete p := by
      have := congrArg Prod.snd hh
      simpa using this
    exact ih (decode_step rest').1 p (by rw [← h2])

/-- `IncompleteSequence::complete` only hands out `StillIncomplete` values
satisfying the invariant, provided its argument does. -/
lemma complete_still_incomplete_inv (p : IncompleteSequence) (input : List Nat)
    (p' : IncompleteSequence) (hinv : seqInv p)
    (h : complete p input = .StillIncomplete p') : seqInv p' := by
  obtain ⟨h1, h2, h3, hv2, hv3⟩ := hinv
  unfold complete complete_third complete_four at h
  dsimp only at h
  split at h
  · -- p.len < 2, i.e. p.len = 1
    rename_i hl2
    split at h
    · -- input = []
      simp only [CompleteResult.StillIncomplete.injEq] at h
      subst h
      exact seqInv_mk _ _ _ _ (by omega) (by omega) h3
        (fun hc => hv2 (by omega)) (fun hc => hv3 (by omega))
    · rename_i second rest
      split at h
      · rename_i hv
        split at h
        · rename_i hw2
          split at h
          · rename_i hl3
            split at h
            · -- ran out at the third byte: ⟨p.len + 1, p.first, second, p.third⟩
              simp only [CompleteResult.StillIncomplete.injEq] at h
              subst h
              exact seqInv_mk _ _ _ _ (by omega) (by omega) h3
                (fun _ => hv) (fun hc => absurd hc (by omega))
            · rename_i third rest3
              split at h
              · rename_i h3c
                split at h
                · rename_i hw3
                  split at h
                  · -- ran out at the fourth byte: ⟨p.len + 2, p.first, second, third⟩
                    simp only [CompleteResult.StillIncomplete.injEq] at h
                    subst h
                    exact seqInv_mk _ _ _ _ (by omega) (by omega) h3
                      (fun _ => hv) (fun _ => h3c)
                  · split at h <;> simp at h
                · simp at h
              · simp at h
          · -- p.len < 2 but ¬ p.len < 3: impossible
            omega
        · simp at h
      · simp at h
  · -- p.len ≥ 2
    rename_i hl2
    split at h
    · rename_i hw2
      split at h
      · -- p.len = 2: read the third byte
        rename_i hl3
        split at h
        · simp only [CompleteResult.StillIncomplete.injEq] at h
          subst h
          exact seqInv_mk _ _ _ _ (by omega) (by omega) h3
            (fun hc => hv2 (by omega)) (fun hc => absurd hc (by omega))
        · rename_i third rest3
          split at h
          · rename_i h3c
            split at h
            · rename_i hw3
              split at h
              · -- ran out at the fourth byte: ⟨p.len + 1, p.first, p.second, third⟩
                simp only [CompleteResult.StillIncomplete.injEq] at h
                subst h
                exact seqInv_mk _ _ _ _ (by omega) (by omega) h3
                  (fun hc => hv2 (by omega)) (fun _ => h3c)
              · split at h <;> simp at h
            · simp at h
          · simp at h
      · -- p.len = 3
        rename_i hl3
        split at h
        · rename_i hw3
          split at h
          · simp only [CompleteResult.StillIncomplete.injEq] at h
            subst h
            exact seqInv_mk _ _ _ _ (by omega) (by omega) h3
              (fun hc => hv2 (by omega)) (fun hc => hv3 (by omega))
          · split at h <;> simp at h
        · simp at h
    · -- p.len ≥ 2 needs width > 2 by the invariant
      omega

/-! ### `complete` on empty and on long-enough input -/

/-- `complete` on the empty slice consumes nothing and returns the sequence
unchanged (`new_len = len + 0`). -/
lemma complete_nil_still (p : IncompleteSequence) (h1 : 0 < p.len)
    (h2 : p.len < width p.first) :
    complete p [] = .StillIncomplete p := by
  unfold complete complete_third complete_four
  dsimp only
  by_cases hl2 : p.len < 2
  · rw [if_pos hl2]
    rfl
  · rw [if_neg hl2]
    have hw2 : width p.first > 2 := by omega
    rw [if_pos hw2]
    by_cases hl3 : p.len < 3
    · rw [if_pos hl3]
      rfl
    · rw [if_neg hl3]
      have hw3 : width p.first > 3 := by omega
      rw [if_pos hw3]
      rfl

/-- `complete` never answers `StillIncomplete` on an input of three or more
bytes: at most three bytes are still missing, so the `next!` macro cannot run
out of input. -/
lemma complete_cons3_not_still (p : IncompleteSequence) (a b c : Nat) (t : List Nat)
    (p' : IncompleteSequence) :
    complete p (a :: b :: c :: t) ≠ .StillIncomplete p' := by
  intro h
  unfold complete complete_third complete_four at h
  dsimp only at h
  split at h
  · -- p.len < 2: read `a` as the second byte
    rename_i hl2
    split at h
    · -- it validated; continue
      split at h
      · -- width > 2: read `b` as the third byte
        split at h
        · split at h
          · -- it is a continuation byte; continue
            split at h
            · -- width > 3: read `c` as the fourth byte
              split at h <;> simp at h
            · simp at h
          · simp at h
        · -- p.len < 2 together with ¬ p.len < 3 is impossible
          omega
      · simp at h
    · simp at h
  · -- p.len ≥ 2
    split at h
    · -- width > 2
      split at h
      · -- p.len < 3: read `a` as the third byte
        split at h
        · split at h
          · -- width > 3: read `b` as the fourth byte
            split at h <;> simp at h
          · simp at h
        · simp at h
      · -- p.len ≥ 3: read `a` as the fourth byte
        split at h
        · split at h <;> simp at h
        · simp at h
    · simp at h

/-! ### Concrete evaluations of `decode_step`

(`decode_step` is defined by well-founded recursion, so these are proved with
the path lemmas rather than by kernel reduction.) -/

lemma decode_step_FF : decode_step [0xFF] = ([], .Error []) :=
  decode_step_width0 0xFF [] (by decide) (by decide)

lemma decode_step_ED_A0_80 :
    decode_step [0xED, 0xA0, 0x80] = ([], .Error [0xA0, 0x80]) := by
  have h := decode_step_inl 0xED [0xA0, 0x80] (.Error [0xA0, 0x80]) (by decide)
  apply h
  apply scan_bad_second 0xED 0xA0 [0x80] (by decide)
  decide

lemma decode_step_C2 : decode_step [0xC2] = ([], .Incomplete ⟨1, 0xC2, 0, 0⟩) :=
  decode_step_inl 0xC2 [] _ (by decide) (scan_incomplete1 0xC2 (by decide))

lemma decode_step_C3_A9 : decode_step [0xC3, 0xA9] = ([0xC3, 0xA9], .Ok) := by
  rw [decode_step_two 0xC3 0xA9 [] (by decide) (by decide), decode_step_nil]

/-! ### Path lemmas for `complete` and its stages -/

lemma complete_len1_step (p : IncompleteSequence) (x : Nat) (b : List Nat)
    (hl2 : p.len < 2) (hv : validSecond p.first x = true) :
    complete p (x :: b) = complete_third ⟨p.len, p.first, x, p.third⟩ (width p.first) 1 b := by
  unfold complete
  dsimp only
  rw [if_pos hl2]
  rw [if_pos hv]

lemma complete_len1_bad (p : IncompleteSequence) (x : Nat) (b : List Nat)
    (hl2 : p.len < 2) (hv : validSecond p.first x = false) :
    complete p (x :: b) = .Error (x :: b) := by
  unfold complete
  dsimp only
  rw [if_pos hl2]
  rw [hv]
  rfl

lemma complete_ge2_step (p : IncompleteSequence) (b : List Nat) (hl2 : ¬ p.len < 2) :
    complete p b = complete_third p (width p.first) 0 b := by
  unfold complete
  dsimp only
  rw [if_neg hl2]

lemma complete_third_nil (s : IncompleteSequence) (w pos : Nat)
    (hw2 : w > 2) (hl3 : s.len < 3) :
    complete_third s w pos [] = .StillIncomplete ⟨s.len + pos, s.first, s.second, s.third⟩ := by
  unfold complete_third
  rw [if_pos hw2, if_pos hl3]

lemma complete_third_cons (s : IncompleteSequence) (w pos : Nat) (x : Nat) (xs : List Nat)
    (hw2 : w > 2) (hl3 : s.len < 3) (hc : is_continuation_byte x = true) :
    complete_third s w pos (x :: xs) =
      complete_four ⟨s.len, s.first, s.second, x⟩ w (pos + 1) xs := by
  unfold complete_third
  rw [if_pos hw2, if_pos hl3]
  dsimp only
  rw [hc]
  rfl

lemma complete_third_cons_bad (s : IncompleteSequence) (w pos : Nat) (x : Nat) (xs : List Nat)
    (hw2 : w > 2) (hl3 : s.len < 3) (hc : is_continuation_byte x = false) :
    complete_third s w pos (x :: xs) = .Error (x :: xs) := by
  unfold complete_third
  rw [if_pos hw2, if_pos hl3]
  dsimp only
  rw [hc]
  rfl

lemma complete_third_skip (s : IncompleteSequence) (w pos : Nat) (b : List Nat)
    (hw2 : w > 2) (hl3 : ¬ s.len < 3) :
    complete_third s w pos b = complete_four s w pos b := by
  unfold complete_third
  rw [if_pos hw2, if_neg hl3]

lemma complete_third_noW (s : IncompleteSequence) (w pos : Nat) (b : List Nat)
    (hw2 : ¬ w > 2) :
    complete_third s w pos b = .Ok ⟨[s.first, s.second, s.third, 0]⟩ b := by
  unfold complete_third
  rw [if_neg hw2]

lemma complete_four_nil (s : IncompleteSequence) (w pos : Nat) (hw3 : w > 3) :
    complete_four s w pos [] = .StillIncomplete ⟨s.len + pos, s.first, s.second, s.third⟩ := by
  unfold complete_four
  rw [if_pos hw3]

lemma complete_four_cons (s : IncompleteSequence) (w pos : Nat) (x : Nat) (xs : List Nat)
    (hw3 : w > 3) (hc : is_continuation_byte x = true) :
    complete_four s w pos (x :: xs) = .Ok ⟨[s.first, s.second, s.third, x]⟩ xs := by
  unfold complete_four
  rw [if_pos hw3]
  dsimp only
  rw [hc]
  rfl

lemma complete_four_cons_bad (s : IncompleteSequence) (w pos : Nat) (x : Nat) (xs : List Nat)
    (hw3 : w > 3) (hc : is_continuation_byte x = false) :
    complete_four s w pos (x :: xs) = .Error (x :: xs) := by
  unfold complete_four
  rw [if_pos hw3]
  dsimp only
  rw [hc]
  rfl

lemma complete_four_noW (s : IncompleteSequence) (w pos : Nat) (b : List Nat)
    (hw3 : ¬ w > 3) :
    complete_four s w pos b = .Ok ⟨[s.first, s.second, s.third, 0]⟩ b := by
  unfold complete_four
  rw [if_neg hw3]

/-! ### Position-shift lemmas: `pos` only enters the result through
`new_len = len + pos`, so trading captured length against position is
invisible as long as the sum and the stage dispatch agree. -/

lemma complete_four_shift (l1 l2 f sec th w pos1 pos2 : Nat) (b : List Nat)
    (hsum : l1 + pos1 = l2 + pos2) :
    complete_four ⟨l1, f, sec, th⟩ w pos1 b = complete_four ⟨l2, f, sec, th⟩ w pos2 b := by
  unfold complete_four
  split
  · cases b with
    | nil =>
      dsimp only
      rw [hsum]
    | cons x xs => rfl
  · rfl

lemma complete_third_shift (l1 l2 f sec th w pos1 pos2 : Nat) (b : List Nat)
    (hsum : l1 + pos1 = l2 + pos2) (hl : l1 < 3 ↔ l2 < 3) :
    complete_third ⟨l1, f, sec, th⟩ w pos1 b = complete_third ⟨l2, f, sec, th⟩ w pos2 b := by
  unfold complete_third
  split
  · by_cases hl1 : l1 < 3
    · rw [if_pos hl1, if_pos (hl.1 hl1)]
      cases b with
      | nil =>
        dsimp only
        rw [hsum]
      | cons x xs =>
        dsimp only
        by_cases hc : is_continuation_byte x = true
        · rw [hc]
          exact complete_four_shift l1 l2 f sec x w (pos1 + 1) (pos2 + 1) xs (by omega)
        · rw [Bool.not_eq_true] at hc
          rw [hc]
          rfl
    · rw [if_neg hl1, if_neg (fun hh => hl1 (hl.2 hh))]
      exact complete_four_shift l1 l2 f sec th w pos1 pos2 b hsum
  · rfl

/-! ### Chunked completion composes -/

/-- If `complete` ran out of input, feeding the rest later is the same as
having fed the concatenation at once. -/
lemma complete_compose (p : IncompleteSequence) (a : List Nat) (p' : IncompleteSequence)
    (hinv : seqInv p) (h : complete p a = .StillIncomplete p') (b : List Nat) :
    complete p' b = complete p (a ++ b) := by
  obtain ⟨h1, h2, h3, hv2, hv3⟩ := hinv
  rcases a with _ | ⟨x, _ | ⟨y, _ | ⟨z, t⟩⟩⟩
  · -- a = []: nothing was consumed and p was returned unchanged
    rw [complete_nil_still p h1 h2] at h
    have hp' : p' = p := by injection h with hh; exact hh.symm
    rw [hp']
    rfl
  · -- a = [x]
    by_cases hl2 : p.len < 2
    · -- p.len = 1: x was read as the second byte
      by_cases hv : validSecond p.first x = true
      · rw [complete_len1_step p x [] hl2 hv] at h
        by_cases hw2 : width p.first > 2
        · rw [complete_third_nil ⟨p.len, p.first, x, p.third⟩ (width p.first) 1 hw2
            (show p.len < 3 by omega)] at h
          have hp' : p' = ⟨p.len + 1, p.first, x, p.third⟩ := by
            injection h with hh; exact hh.symm
          rw [hp', show ([x] ++ b : List Nat) = x :: b from rfl]
          rw [complete_len1_step p x b hl2 hv]
          have e1 : complete (⟨p.len + 1, p.first, x, p.third⟩ : IncompleteSequence) b =
              complete_third ⟨p.len + 1, p.first, x, p.third⟩ (width p.first) 0 b :=
            complete_ge2_step _ b (show ¬ p.len + 1 < 2 by omega)
          rw [e1]
          exact complete_third_shift (p.len + 1) p.len p.first x p.third
            (width p.first) 0 1 b (by omega) (by omega)
        · rw [complete_third_noW _ _ 1 [] hw2] at h
          simp at h
      · rw [Bool.not_eq_true] at hv
        rw [complete_len1_bad p x [] hl2 hv] at h
        simp at h
    · -- p.len ≥ 2: x was read as the third or fourth byte
      rw [complete_ge2_step p [x] hl2] at h
      by_cases hw2 : width p.first > 2
      · by_cases hl3 : p.len < 3
        · -- x was read as the third byte
          by_cases hc : is_continuation_byte x = true
          · rw [complete_third_cons p _ 0 x [] hw2 hl3 hc] at h
            by_cases hw3 : width p.first > 3
            · rw [complete_four_nil _ _ _ hw3] at h
              have hp' : p' = ⟨p.len + 1, p.first, p.second, x⟩ := by
                injection h with hh; exact hh.symm
              rw [hp', show ([x] ++ b : List Nat) = x :: b from rfl]
              rw [complete_ge2_step p (x :: b) hl2]
              have e2 : complete_third p (width p.first) 0 (x :: b) =
                  complete_four ⟨p.len, p.first, p.second, x⟩ (width p.first) (0 + 1) b :=
                complete_third_cons p _ 0 x b hw2 hl3 hc
              rw [e2]
              have e3 : complete (⟨p.len + 1, p.first, p.second, x⟩ : IncompleteSequence) b =
                  complete_third ⟨p.len + 1, p.first, p.second, x⟩ (width p.first) 0 b :=
                complete_ge2_step _ b (show ¬ p.len + 1 < 2 by omega)
              have e4 : complete_third (⟨p.len + 1, p.first, p.second, x⟩ : IncompleteSequence)
                  (width p.first) 0 b =
                  complete_four ⟨p.len + 1, p.first, p.second, x⟩ (width p.first) 0 b :=
                complete_third_skip _ _ 0 b hw2 (show ¬ p.len + 1 < 3 by omega)
              rw [e3, e4]
              exact complete_four_shift (p.len + 1) p.len p.first p.second x
                (width p.first) 0 (0 + 1) b (by omega)
            · rw [complete_four_noW _ _ _ _ hw3] at h
              simp at h
          · rw [Bool.not_eq_true] at hc
            rw [complete_third_cons_bad p _ 0 x [] hw2 hl3 hc] at h
            simp at h
        · -- p.len = 3: x was read as the fourth byte, never StillIncomplete
          rw [complete_third_skip p _ 0 [x] hw2 hl3] at h
          by_cases hw3 : width p.first > 3
          · by_cases hc : is_continuation_byte x = true
            · rw [complete_four_cons p _ 0 x [] hw3 hc] at h
              simp at h
            · rw [Bool.not_eq_true] at hc
              rw [complete_four_cons_bad p _ 0 x [] hw3 hc] at h
              simp at h
          · rw [complete_four_noW p _ 0 [x] hw3] at h
            simp at h
      · rw [complete_third_noW p _ 0 [x] hw2] at h
        simp at h
  · -- a = [x, y]
    by_cases hl2 : p.len < 2
    · by_cases hv : validSecond p.first x = true
      · rw [complete_len1_step p x [y] hl2 hv] at h
        by_cases hw2 : width p.first > 2
        · have hl3 : p.len < 3 := by omega
          by_cases hc : is_continuation_byte y = true
          · have e5 : complete_third (⟨p.len, p.first, x, p.third⟩ : IncompleteSequence)
                (width p.first) 1 [y] =
                complete_four ⟨p.len, p.first, x, y⟩ (width p.first) (1 + 1) [] :=
              complete_third_cons _ _ 1 y [] hw2 (show p.len < 3 by omega) hc
            rw [e5] at h
            by_cases hw3 : width p.first > 3
            · rw [complete_four_nil _ _ _ hw3] at h
              have hp' : p' = ⟨p.len + 2, p.first, x, y⟩ := by
                injection h with hh; exact hh.symm
              rw [hp', show ([x, y] ++ b : List Nat) = x :: y :: b from rfl]
              rw [complete_len1_step p x (y :: b) hl2 hv]
              have e6 : complete_third (⟨p.len, p.first, x, p.third⟩ : IncompleteSequence)
                  (width p.first) 1 (y :: b) =
                  complete_four ⟨p.len, p.first, x, y⟩ (width p.first) (1 + 1) b :=
                complete_third_cons _ _ 1 y b hw2 (show p.len < 3 by omega) hc
              rw [e6]
              have e7 : complete (⟨p.len + 2, p.first, x, y⟩ : IncompleteSequence) b =
                  complete_third ⟨p.len + 2, p.first, x, y⟩ (width p.first) 0 b :=
                complete_ge2_step _ b (show ¬ p.len + 2 < 2 by omega)
              have e8 : complete_third (⟨p.len + 2, p.first, x, y⟩ : IncompleteSequence)
                  (width p.first) 0 b =
                  complete_four ⟨p.len + 2, p.first, x, y⟩ (width p.first) 0 b :=
                complete_third_skip _ _ 0 b hw2 (show ¬ p.len + 2 < 3 by omega)
              rw [e7, e8]
              exact complete_four_shift (p.len + 2) p.len p.first x y
                (width p.first) 0 (1 + 1) b (by omega)
            · rw [complete_four_noW _ _ _ _ hw3] at h
              simp at h
          · rw [Bool.not_eq_true] at hc
            have e9 : complete_third (⟨p.len, p.first, x, p.third⟩ : IncompleteSequence)
                (width p.first) 1 [y] = .Error [y] :=
              complete_third_cons_bad _ _ 1 y [] hw2 (show p.len < 3 by omega) hc
            rw [e9] at h
            simp at h
        · rw [complete_third_noW _ _ 1 [y] hw2] at h
          simp at h
      · rw [Bool.not_eq_true] at hv
        rw [complete_len1_bad p x [y] hl2 hv] at h
        simp at h
    · -- p.len ≥ 2: at most two bytes are missing, so [x, y] always resolves
      rw [complete_ge2_step p [x, y] hl2] at h
      by_cases hw2 : width p.first > 2
      · by_cases hl3 : p.len < 3
        · by_cases hc : is_continuation_byte x = true
          · rw [complete_third_cons p _ 0 x [y] hw2 hl3 hc] at h
            by_cases hw3 : width p.first > 3
            · by_cases hc2 : is_continuation_byte y = true
              · rw [complete_four_cons _ _ _ y [] hw3 hc2] at h
                simp at h
              · rw [Bool.not_eq_true] at hc2
                rw [complete_four_cons_bad _ _ _ y [] hw3 hc2] at h
                simp at h
            · rw [complete_four_noW _ _ _ _ hw3] at h
              simp at h
          · rw [Bool.not_eq_true] at hc
            rw [complete_third_cons_bad p _ 0 x [y] hw2 hl3 hc] at h
            simp at h
        · rw [complete_third_skip p _ 0 [x, y] hw2 hl3] at h
          by_cases hw3 : width p.first > 3
          · by_cases hc : is_continuation_byte x = true
            · rw [complete_four_cons p _ 0 x [y] hw3 hc] at h
              simp at h
            · rw [Bool.not_eq_true] at hc
              rw [complete_four_cons_bad p _ 0 x [y] hw3 hc] at h
              simp at h
          · rw [complete_four_noW p _ 0 [x, y] hw3] at h
            simp at h
      · rw [complete_third_noW p _ 0 [x, y] hw2] at h
        simp at h
  · -- a has three or more bytes: `complete` never answers StillIncomplete
    exact absurd h (complete_cons3_not_still p x y z t p')

lemma validSecond_w2 (b1 b2 : Nat) (hw : width b1 = 2) :
    validSecond b1 b2 = is_continuation_byte b2 := by
  unfold validSecond
  rw [hw]

lemma validSecond_w3 (b1 b2 : Nat) (hw : width b1 = 3) :
    validSecond b1 b2 = valid_three_bytes_sequence_prefix b1 b2 := by
  unfold validSecond
  rw [hw]

lemma validSecond_w4 (b1 b2 : Nat) (hw : width b1 = 4) :
    validSecond b1 b2 = valid_four_bytes_sequence_prefix b1 b2 := by
  unfold validSecond
  rw [hw]

/-! ## The claims -/

/-- C1, counterexample: on input `FF`, `decode_step` returns
`("", Error)` with an EMPTY remainder — `check!(width != 0, 1)` slices
`&input[position + 1..]`, so the invalid leading byte is consumed, and the
remainder is not `[FF]` as the claim states. -/
theorem claim_C1_counterexample :
    decode_step [0xFF] = ([], DecodeStepStatus.Error []) ∧
    (([], DecodeStepStatus.Error []) : List Nat × DecodeStepStatus) ≠
      ([], DecodeStepStatus.Error [0xFF]) :=
  ⟨decode_step_FF, by decide⟩

/-- C1 (amended): when `decode_step` meets a byte of width 0 after a
well-formed prefix `v`, it returns `Error` with validated prefix exactly `v`
(the bytes strictly before the invalid byte) and
`remaining_input_after_error` the slice starting immediately AFTER the
invalid byte: the invalid leading byte IS consumed.  In particular
`decode_step [FF] = ("", Error - remaining [])`. -/
theorem claim_C1_amended (v : List Nat) (b : Nat) (rest : List Nat)
    (hv : SpecWellFormed v) (hb : b < 256) (hw : width b = 0) :
    decode_step (v ++ b :: rest) = (v, .Error rest) := by
  have hnb : ¬ b < 128 := by
    intro hlt
    have := width_ascii b hlt
    omega
  rw [decode_step_append v hv (b :: rest), decode_step_width0 b rest hnb hw]
  simp

/-- C1 (amended), witness at the concrete input `FF`. -/
theorem claim_C1_amended_witness : decode_step [0xFF] = ([], DecodeStepStatus.Error []) :=
  claim_C1_amended [] 0xFF [] SpecWellFormed.nil (by decide) (by decide)

/-- C2: for every byte sequence that is well-formed UTF-8 per RFC 3629
(no overlongs, no surrogates, nothing above U+10FFFF), `decode_step` returns
the whole input as the validated prefix together with `Ok`. -/
theorem claim_C2 (s : List Nat) (h : SpecWellFormed s) : decode_step s = (s, .Ok) := by
  have hs := decode_step_append s h []
  simpa [decode_step_nil] using hs

/-- C2, witness at the concrete well-formed input `C3 A9` ("é"). -/
theorem claim_C2_witness : decode_step [0xC3, 0xA9] = ([0xC3, 0xA9], DecodeStepStatus.Ok) :=
  claim_C2 [0xC3, 0xA9]
    (SpecWellFormed.two (by decide) (by decide) ⟨by decide, by decide⟩ SpecWellFormed.nil)

/-- C3: completion composes.  If `complete p a` answers `StillIncomplete p'`
(for `p` satisfying the invariant), then `complete p' b` gives exactly the
same result — same codepoint, same error position, same updated partial —
as feeding the concatenation `a ++ b` to `complete p` at once. -/
theorem claim_C3 (p : IncompleteSequence) (a : List Nat) (p' : IncompleteSequence)
    (hinv : seqInv p) (h : complete p a = .StillIncomplete p') (b : List Nat) :
    complete p' b = complete p (a ++ b) :=
  complete_compose p a p' hinv h b

/-- C3, witness: the spec's "€" example `E2 82 AC` split after `82`. -/
theorem claim_C3_witness :
    complete ⟨2, 0xE2, 0x82, 0⟩ [0xAC] = complete ⟨1, 0xE2, 0, 0⟩ ([0x82] ++ [0xAC]) :=
  claim_C3 ⟨1, 0xE2, 0, 0⟩ [0x82] ⟨2, 0xE2, 0x82, 0⟩
    ⟨by decide, by decide, by decide,
      fun hh => absurd hh (by decide), fun hh => absurd hh (by decide)⟩
    (by decide) [0xAC]

/-- C4: when a multi-byte sequence with a structurally valid leading byte
(width ≥ 2) meets a required byte that fails its validator — second, third or
fourth — `decode_step` returns `Error` with the remainder starting exactly at
that failing byte, so the valid leading byte is consumed; in particular
`decode_step [ED A0 80] = ("", Error - remaining [A0 80])`. -/
theorem claim_C4 :
    (∀ (v : List Nat) (b1 b2 : Nat) (rest : List Nat), SpecWellFormed v →
      2 ≤ width b1 → validSecond b1 b2 = false →
      decode_step (v ++ b1 :: b2 :: rest) = (v, .Error (b2 :: rest))) ∧
    (∀ (v : List Nat) (b1 b2 b3 : Nat) (rest : List Nat), SpecWellFormed v →
      3 ≤ width b1 → validSecond b1 b2 = true → is_continuation_byte b3 = false →
      decode_step (v ++ b1 :: b2 :: b3 :: rest) = (v, .Error (b3 :: rest))) ∧
    (∀ (v : List Nat) (b1 b2 b3 b4 : Nat) (rest : List Nat), SpecWellFormed v →
      width b1 = 4 → validSecond b1 b2 = true → is_continuation_byte b3 = true →
      is_continuation_byte b4 = false →
      decode_step (v ++ b1 :: b2 :: b3 :: b4 :: rest) = (v, .Error (b4 :: rest))) ∧
    decode_step [0xED, 0xA0, 0x80] = ([], .Error [0xA0, 0x80]) := by
  refine ⟨?_, ?_, ?_, decode_step_ED_A0_80⟩
  · intro v b1 b2 rest hv hw hval
    rw [decode_step_append v hv _,
      decode_step_inl b1 (b2 :: rest) _ (not_ascii_of_width_ge_two b1 hw)
        (scan_bad_second b1 b2 rest (by omega) hval)]
    simp
  · intro v b1 b2 b3 rest hv hw hval h3
    rw [decode_step_append v hv _,
      decode_step_inl b1 (b2 :: b3 :: rest) _ (not_ascii_of_width_ge_two b1 (by omega))
        (scan_bad_third b1 b2 b3 rest (by omega) (by omega) hval h3)]
    simp
  · intro v b1 b2 b3 b4 rest hv hw hval h3 h4
    rw [decode_step_append v hv _,
      decode_step_inl b1 (b2 :: b3 :: b4 :: rest) _ (not_ascii_of_width_ge_two b1 (by omega))
        (scan_bad_fourth b1 b2 b3 b4 rest (by omega) (by omega) hval h3 h4)]
    simp

/-- C4, witness at the concrete input `ED A0 80` (a surrogate). -/
theorem claim_C4_witness :
    decode_step [0xED, 0xA0, 0x80] = ([], DecodeStepStatus.Error [0xA0, 0x80]) :=
  claim_C4.1 [] 0xED 0xA0 [0x80] SpecWellFormed.nil (by decide) (by decide)

/-- C5: the width classifier is total on bytes, with exactly the table of
values stated in the spec: `<0x80 -> 1`; `0x80..0xC1 -> 0`; `0xF5..0xFF -> 0`;
`0xC2..0xDF -> 2`; `0xE0..0xEF -> 3`; `0xF0..0xF4 -> 4`. -/
theorem claim_C5 (b : Nat) (hb : b < 256) :
    (b < 0x80 → width b = 1) ∧
    (0x80 ≤ b ∧ b ≤ 0xC1 → width b = 0) ∧
    (0xF5 ≤ b → width b = 0) ∧
    (0xC2 ≤ b ∧ b ≤ 0xDF → width b = 2) ∧
    (0xE0 ≤ b ∧ b ≤ 0xEF → width b = 3) ∧
    (0xF0 ≤ b ∧ b ≤ 0xF4 → width b = 4) :=
  (by decide :
    ∀ b, b < 256 →
      (b < 0x80 → width b = 1) ∧
      (0x80 ≤ b ∧ b ≤ 0xC1 → width b = 0) ∧
      (0xF5 ≤ b → width b = 0) ∧
      (0xC2 ≤ b ∧ b ≤ 0xDF → width b = 2) ∧
      (0xE0 ≤ b ∧ b ≤ 0xEF → width b = 3) ∧
      (0xF0 ≤ b ∧ b ≤ 0xF4 → width b = 4)) b hb

/-- C5, witness at the concrete byte `0xC2`. -/
theorem claim_C5_witness :
    (0xC2 < 0x80 → width 0xC2 = 1) ∧
    (0x80 ≤ 0xC2 ∧ 0xC2 ≤ 0xC1 → width 0xC2 = 0) ∧
    (0xF5 ≤ 0xC2 → width 0xC2 = 0) ∧
    (0xC2 ≤ 0xC2 ∧ 0xC2 ≤ 0xDF → width 0xC2 = 2) ∧
    (0xE0 ≤ 0xC2 ∧ 0xC2 ≤ 0xEF → width 0xC2 = 3) ∧
    (0xF0 ≤ 0xC2 ∧ 0xC2 ≤ 0xF4 → width 0xC2 = 4) :=
  claim_C5 0xC2 (by decide)

/-- C6: exact characterisation of the prefix validators on bytes.
`valid_three_bytes_sequence_prefix` holds exactly for the RFC-3629-narrowed
3-byte ranges (`E0` with `A0..BF`; `E1..EC` or `EE..EF` with any continuation
byte; `ED` with `80..9F`); `valid_four_bytes_sequence_prefix` exactly for the
4-byte ranges (`F0` with `90..BF`; `F1..F3` with any continuation byte; `F4`
with `80..8F`); and `is_continuation_byte b` holds iff `b`'s top two bits are
`10` (that is, `b >>> 6 = 2`). -/
theorem claim_C6 (b1 b2 : Nat) (h1 : b1 < 256) (h2 : b2 < 256) :
    ( valid_three_bytes_sequence_prefix b1 b2 = true ↔
      ((b1 = 0xE0 ∧ 0xA0 ≤ b2 ∧ b2 ≤ 0xBF) ∨
       (((0xE1 ≤ b1 ∧ b1 ≤ 0xEC) ∨ (0xEE ≤ b1 ∧ b1 ≤ 0xEF)) ∧
         is_continuation_byte b2 = true) ∨
       (b1 = 0xED ∧ 0x80 ≤ b2 ∧ b2 ≤ 0x9F))) ∧
    ( valid_four_bytes_sequence_prefix b1 b2 = true ↔
      ((b1 = 0xF0 ∧ 0x90 ≤ b2 ∧ b2 ≤ 0xBF) ∨
       (0xF1 ≤ b1 ∧ b1 ≤ 0xF3 ∧ is_continuation_byte b2 = true) ∨
       (b1 = 0xF4 ∧ 0x80 ≤ b2 ∧ b2 ≤ 0x8F))) ∧
    (is_continuation_byte b2 = true ↔ b2 >>> 6 = 2) := by
  refine ⟨?_, ?_, ?_⟩
  · rw [valid_three_iff, is_continuation_byte_iff b2 h2]
    tauto
  · rw [valid_four_iff, is_continuation_byte_iff b2 h2]
  · exact (by decide : ∀ b, b < 256 → (is_continuation_byte b = true ↔ b >>> 6 = 2)) b2 h2

/-- C6, witness at the concrete bytes `b1 = 0xED`, `b2 = 0xA0`. -/
theorem claim_C6_witness :
    ( valid_three_bytes_sequence_prefix 0xED 0xA0 = true ↔
      ((0xED = 0xE0 ∧ 0xA0 ≤ 0xA0 ∧ 0xA0 ≤ 0xBF) ∨
       (((0xE1 ≤ 0xED ∧ 0xED ≤ 0xEC) ∨ (0xEE ≤ 0xED ∧ 0xED ≤ 0xEF)) ∧
         is_continuation_byte 0xA0 = true) ∨
       (0xED = 0xED ∧ 0x80 ≤ 0xA0 ∧ 0xA0 ≤ 0x9F))) ∧
    ( valid_four_bytes_sequence_prefix 0xED 0xA0 = true ↔
      ((0xED = 0xF0 ∧ 0x90 ≤ 0xA0 ∧ 0xA0 ≤ 0xBF) ∨
       (0xF1 ≤ 0xED ∧ 0xED ≤ 0xF3 ∧ is_continuation_byte 0xA0 = true) ∨
       (0xED = 0xF4 ∧ 0x80 ≤ 0xA0 ∧ 0xA0 ≤ 0x8F))) ∧
    (is_continuation_byte 0xA0 = true ↔ 0xA0 >>> 6 = 2) :=
  claim_C6 0xED 0xA0 (by decide) (by decide)

/-- C7: inputs beginning with an overlong encoding (`C0`/`C1` leads, `E0`
with second byte below `A0`, `F0` with second byte below `90`), with a
surrogate sequence (`ED` with second byte in `A0..BF`), or with a 4-byte
sequence above U+10FFFF (`F4` with second byte above `8F`) always make
`decode_step` return `Error` at the offending byte — never `Ok`, and never
`Incomplete` past it. -/
theorem claim_C7 :
    (∀ (b : Nat) (rest : List Nat), b = 0xC0 ∨ b = 0xC1 →
      decode_step (b :: rest) = ([], .Error rest)) ∧
    (∀ (b2 : Nat) (rest : List Nat), 0x80 ≤ b2 → b2 < 0xA0 →
      decode_step (0xE0 :: b2 :: rest) = ([], .Error (b2 :: rest))) ∧
    (∀ (b2 : Nat) (rest : List Nat), 0x80 ≤ b2 → b2 < 0x90 →
      decode_step (0xF0 :: b2 :: rest) = ([], .Error (b2 :: rest))) ∧
    (∀ (b2 : Nat) (rest : List Nat), 0xA0 ≤ b2 → b2 ≤ 0xBF →
      decode_step (0xED :: b2 :: rest) = ([], .Error (b2 :: rest))) ∧
    (∀ (b2 : Nat) (rest : List Nat), 0x8F < b2 → b2 ≤ 0xBF →
      decode_step (0xF4 :: b2 :: rest) = ([], .Error (b2 :: rest))) := by
  refine ⟨?_, ?_, ?_, ?_, ?_⟩
  · rintro b rest (rfl | rfl) <;>
      exact decode_step_width0 _ rest (by decide) (by decide)
  · intro b2 rest hlo hhi
    refine decode_step_inl _ _ _ (by decide) (scan_bad_second _ _ _ (by decide) ?_)
    rw [validSecond_w3 0xE0 b2 (by decide), Bool.eq_false_iff]
    intro hx
    rw [valid_three_iff] at hx
    omega
  · intro b2 rest hlo hhi
    refine decode_step_inl _ _ _ (by decide) (scan_bad_second _ _ _ (by decide) ?_)
    rw [validSecond_w4 0xF0 b2 (by decide), Bool.eq_false_iff]
    intro hx
    rw [valid_four_iff] at hx
    omega
  · intro b2 rest hlo hhi
    refine decode_step_inl _ _ _ (by decide) (scan_bad_second _ _ _ (by decide) ?_)
    rw [validSecond_w3 0xED b2 (by decide), Bool.eq_false_iff]
    intro hx
    rw [valid_three_iff] at hx
    omega
  · intro b2 rest hlo hhi
    refine decode_step_inl _ _ _ (by decide) (scan_bad_second _ _ _ (by decide) ?_)
    rw [validSecond_w4 0xF4 b2 (by decide), Bool.eq_false_iff]
    intro hx
    rw [valid_four_iff] at hx
    omega

/-- C7, witness at the concrete overlong input `C0 80`. -/
theorem claim_C7_witness :
    decode_step [0xC0, 0x80] = ([], DecodeStepStatus.Error [0x80]) :=
  claim_C7.1 0xC0 [0x80] (Or.inl rfl)

/-- C8: every `IncompleteSequence` handed out by the library — as
`Incomplete` from `decode_step`, or as `StillIncomplete` from `complete`
applied to a sequence already satisfying the invariant — satisfies
`0 < len < width first ≤ 4` with all captured bytes validated. -/
theorem claim_C8 :
    (∀ (input pre : List Nat) (p : IncompleteSequence),
      decode_step input = (pre, .Incomplete p) → seqInv p) ∧
    (∀ (p : IncompleteSequence) (input : List Nat) (p' : IncompleteSequence),
      seqInv p → complete p input = .StillIncomplete p' → seqInv p') :=
  ⟨fun input pre p h => decode_step_incomplete_inv input pre p h,
   fun p input p' hinv h => complete_still_incomplete_inv p input p' hinv h⟩

/-- C8, witness: the sequence produced by `decode_step [C2]`. -/
theorem claim_C8_witness : seqInv ⟨1, 0xC2, 0, 0⟩ :=
  claim_C8.1 [0xC2] [] ⟨1, 0xC2, 0, 0⟩ decode_step_C2

/-- C9: for a sequence satisfying the invariant, `complete` on an input of
at least three bytes never answers `StillIncomplete` (at most three bytes can
still be missing); `StillIncomplete` is possible only for inputs shorter than
three bytes. -/
theorem claim_C9 (p : IncompleteSequence) (input : List Nat)
    (hinv : seqInv p) (hlen : 3 ≤ input.length) (p' : IncompleteSequence) :
    complete p input ≠ .StillIncomplete p' := by
  rcases input with _ | ⟨a, _ | ⟨b, _ | ⟨c, t⟩⟩⟩
  · simp at hlen
  · simp at hlen
  · simp at hlen
  · exact complete_cons3_not_still p a b c t p'

/-- C9, witness at a concrete three-byte input. -/
theorem claim_C9_witness :
    complete ⟨1, 0xC2, 0, 0⟩ [0x80, 0x41, 0x42] ≠ .StillIncomplete ⟨1, 0, 0, 0⟩ :=
  claim_C9 ⟨1, 0xC2, 0, 0⟩ [0x80, 0x41, 0x42]
    ⟨by decide, by decide, by decide,
      fun hh => absurd hh (by decide), fun hh => absurd hh (by decide)⟩
    (by decide) ⟨1, 0, 0, 0⟩

/-- C10: `complete` on the empty slice consumes nothing and returns
`StillIncomplete` with a sequence identical to its argument — `len`, `first`,
`second` and `third` all unchanged. -/
theorem claim_C10 (p : IncompleteSequence) (hinv : seqInv p) :
    complete p [] = .StillIncomplete p := by
  obtain ⟨h1, h2, -, -, -⟩ := hinv
  exact complete_nil_still p h1 h2

/-- C10, witness at a concrete incomplete sequence. -/
theorem claim_C10_witness :
    complete ⟨1, 0xC2, 0, 0⟩ [] = .StillIncomplete ⟨1, 0xC2, 0, 0⟩ :=
  claim_C10 ⟨1, 0xC2, 0, 0⟩
    ⟨by decide, by decide, by decide,
      fun hh => absurd hh (by decide), fun hh => absurd hh (by decide)⟩

end Utf8
